import Mathlib

/-!
Verification of the free-text query interpreter and ranking engine of the
`ecommerce-ai` catalog browser (`src/App.tsx`: `parseQuery`, `scoreProduct`,
`applyAIQuery`).

Modelling conventions:
* JavaScript numbers (IEEE float64) are modelled as exact rationals `ℚ`;
  all prices, ratings and scores in the program are small decimals, and the
  sequential `s += c` accumulation of `scoreProduct` is rendered as the
  corresponding sum of terms (equal in `ℚ`).
* JavaScript strings are modelled as `String` / `List Char`; the regex class
  `\s` is modelled as ASCII whitespace (`Char.isWhitespace`), `\d` as `[0-9]`
  (`Char.isDigit`), `\w` as `[A-Za-z0-9_]`.
* `Array.prototype.sort` with a consistent comparator is a stable sort; it is
  modelled by `List.insertionSort` with the relation `comparator a b ≤ 0`,
  which is the stable sort for that total relation.
-/

namespace EcommerceAI

/-- Embeds `Product` from `src/data/products.ts` (category is one of a closed label
set in the source; modelled as `String`, compared literally as the code does). -/
structure Product where
  id : String
  name : String
  price : ℚ
  category : String
  rating : ℚ
  description : String
deriving DecidableEq

/-- The `priceIntent` tag `"high" | "low"` of the `Query` type. -/
inductive PriceIntent
  | high
  | low
deriving DecidableEq

/-- The `Query` record produced by `parseQuery`. -/
structure Query where
  maxPrice : Option ℚ
  minPrice : Option ℚ
  minRating : Option ℚ
  keywords : List String
  priceIntent : Option PriceIntent
deriving DecidableEq

/-- Embeds `CATEGORY_HINTS` from the source. -/
def CATEGORY_HINTS : List String :=
  ["shoes", "electronics", "apparel", "accessories", "watches", "bags"]

/-- Embeds `String.prototype.toLowerCase`, character-wise. -/
def lowerString (s : String) : String :=
  String.mk (s.data.map Char.toLower)

/-- Is `sub` an initial segment of `l`? (helper for substring search). -/
def isPrefixList : List Char → List Char → Bool
  | [], _ => true
  | _ :: _, [] => false
  | a :: as, b :: bs => a == b && isPrefixList as bs

/-- Embeds `hay.includes(sub)`: `sub` occurs contiguously in `l` (the empty string
occurs in everything, as in JavaScript). -/
def containsSub : List Char → List Char → Bool
  | [], sub => isPrefixList sub []
  | l@(_ :: t), sub => isPrefixList sub l || containsSub t sub

/-- Embeds `scoreProduct(p, query, nprice)` from the source: the sequential
`s += bonus` accumulation, written as the equal sum of its terms. -/
def scoreProduct (p : Product) (query : Query) (nprice : ℚ) : ℚ :=
  let hay := (lowerString (p.name ++ " " ++ p.description ++ " " ++ p.category)).data
  let catLower := lowerString p.category
  (query.keywords.foldl (fun acc k => if containsSub hay k.data then acc + 5/2 else acc) 0)
  + (if CATEGORY_HINTS.any (fun h => query.keywords.contains h && h == catLower)
      then 5/2 else 0)
  + (match query.maxPrice with
      | some m => if p.price ≤ m then 2 else 0
      | none => 0)
  + (match query.minPrice with
      | some m => if m ≤ p.price then 3/2 else 0
      | none => 0)
  + (match query.minRating with
      | some m => if m ≤ p.rating then 2 else 0
      | none => 0)
  + (if query.priceIntent = some PriceIntent.high then nprice * 3 else 0)
  + (if query.priceIntent = some PriceIntent.low then (1 - nprice) * 3 else 0)
  + p.rating * (2/10)
  - p.price * (1/100)

/-- Embeds `Math.min(...l)` for the (in the program always non-empty) price list;
the `[]` case is unreachable behind the empty-input guard of `applyAIQuery`. -/
def minOfList : List ℚ → ℚ
  | [] => 0
  | x :: xs => xs.foldl min x

/-- Embeds `Math.max(...l)`, same convention as `minOfList`. -/
def maxOfList : List ℚ → ℚ
  | [] => 0
  | x :: xs => xs.foldl max x

/-- Embeds `min` over the candidate set's prices (`const min = Math.min(...prices)`). -/
def minPriceOf (all : List Product) : ℚ :=
  minOfList (all.map Product.price)

/-- Embeds `max` over the candidate set's prices (`const max = Math.max(...prices)`). -/
def maxPriceOf (all : List Product) : ℚ :=
  maxOfList (all.map Product.price)

/-- Embeds `const span = Math.max(1, max - min)`. -/
def span (all : List Product) : ℚ :=
  max 1 (maxPriceOf all - minPriceOf all)

/-- Embeds `const nprice = (p.price - min) / span`. -/
def nprice (all : List Product) (p : Product) : ℚ :=
  (p.price - minPriceOf all) / span all

/-- The transient `{ p, s, nprice }` record built inside `applyAIQuery`. -/
structure Scored where
  p : Product
  s : ℚ
  nprice : ℚ
deriving DecidableEq

/-- The sort comparator of `applyAIQuery`, rendered as the Boolean relation
`comparator(a, b) ≤ 0` ("`a` may precede `b`"): score descending, then the
price-intent tie-breaks on `nprice`, then rating descending, then price
ascending. -/
def sortLE (parsed : Query) (a b : Scored) : Bool :=
  if a.s ≠ b.s then decide (b.s < a.s)
  else if parsed.priceIntent = some PriceIntent.high ∧ a.nprice ≠ b.nprice then
    decide (b.nprice < a.nprice)
  else if parsed.priceIntent = some PriceIntent.low ∧ a.nprice ≠ b.nprice then
    decide (a.nprice < b.nprice)
  else if a.p.rating ≠ b.p.rating then decide (b.p.rating < a.p.rating)
  else decide (a.p.price ≤ b.p.price)

/-- Stage one of `applyAIQuery`: the `.map` building `{ p, s, nprice }` per
candidate. -/
def scoredOf (all : List Product) (parsed : Query) : List Scored :=
  all.map fun p => Scored.mk p (scoreProduct p parsed (nprice all p)) (nprice all p)

/-- Stage two of `applyAIQuery`: the `.filter(x => x.s > 0.5)` dropping
low-relevance candidates. -/
def survivors (all : List Product) (parsed : Query) : List Scored :=
  (scoredOf all parsed).filter fun x => decide ((1 : ℚ)/2 < x.s)

/-- The ranking engine: the body of `applyAIQuery` after query parsing
(`rank(items, constraints)` of the specification).  Maps each item to its
scored record, drops scores `≤ 0.5`, sorts stably by the comparator, projects
back to items, and falls back to the whole input when nothing survives. -/
def rank (all : List Product) (parsed : Query) : List Product :=
  if all.isEmpty then all
  else
    let scored :=
      ((survivors all parsed).insertionSort fun a b => sortLE parsed a b = true).map Scored.p
    if scored.isEmpty then all else scored

/-! ### The query interpreter `parseQuery`

The five regular expressions of the source are embedded as explicit scanners
on `List Char`.  Each `...At` function attempts the pattern at the current
position; `scanFirst` / `scanTest` replay `RegExp.exec` / `.test`, which try
every start position from the left.  In every pattern of the source, the
context following a `\d+`, `(\.\d+)?` or `[-\s]?` sub-match can never accept
the character that a shorter greedy sub-match would leave behind (a digit, a
dot, a hyphen or a whitespace character), so greedy matching without
backtracking is exactly equivalent to the regex semantics and is what the
scanners implement. -/

/-- Embeds `STOPWORDS` from the source. -/
def STOPWORDS : List String :=
  ["the", "a", "an", "with", "and", "for", "under", "below", "less", "than", "between",
   "over", "above", "at", "least", "most", "good", "great", "high", "reviews", "review",
   "stars", "star", "me", "show", "find", "in", "on", "of", "to",
   "expensive", "premium", "highend", "high-end", "pricey", "pricy", "top-tier", "toptier",
   "cheap", "budget", "affordable", "inexpensive", "low-cost", "lowcost", "low-end", "lowend"]

/-- A `\w` word character, `[A-Za-z0-9_]`. -/
def isWordChar (c : Char) : Bool :=
  c.isAlphanum || c == '_'

/-- Case-insensitive literal match (`lit` given in lowercase): on success
returns the rest of the input. -/
def matchCI : List Char → List Char → Option (List Char)
  | [], l => some l
  | _ :: _, [] => none
  | a :: as, c :: cs => if c.toLower == a then matchCI as cs else none

/-- Embeds `\s*`. -/
def skipWs (l : List Char) : List Char :=
  l.dropWhile Char.isWhitespace

/-- Embeds `\s+`: at least one whitespace character. -/
def ws1 : List Char → Option (List Char)
  | [] => none
  | c :: t => if c.isWhitespace then some (skipWs t) else none

/-- Embeds `\$?`: an optional dollar sign. -/
def skipDollar : List Char → List Char
  | [] => []
  | c :: t => if c == '$' then t else c :: t

/-- Numeric value of a digit run. -/
def digitsVal (ds : List Char) : ℕ :=
  ds.foldl (fun n c => 10 * n + (c.toNat - '0'.toNat)) 0

/-- Embeds `Number("ip.fp")` as a rational. -/
def decimalVal (ip fp : List Char) : ℚ :=
  (digitsVal ip : ℚ) + (digitsVal fp : ℚ) / (10 ^ fp.length)

/-- Greedy scan of `\d+(?:\.\d+)?`, returning its value and the rest. -/
def scanNumber (l : List Char) : Option (ℚ × List Char) :=
  let ds := l.takeWhile Char.isDigit
  if ds.isEmpty then none
  else
    match l.dropWhile Char.isDigit with
    | '.' :: r2 =>
      let fs := r2.takeWhile Char.isDigit
      if fs.isEmpty then some (decimalVal ds [], '.' :: r2)
      else some (decimalVal ds fs, r2.dropWhile Char.isDigit)
    | r1 => some (decimalVal ds [], r1)

/-- Replay of `RegExp.exec`: try `f` at every start position, left to right. -/
def scanFirst {α : Type} (f : List Char → Option α) : List Char → Option α
  | [] => f []
  | c :: t =>
    match f (c :: t) with
    | some v => some v
    | none => scanFirst f t

/-- Replay of `RegExp.test` for patterns opening with `\b`: try `f` at every
position, tracking the previous character for the word boundary. -/
def scanTest (f : Option Char → List Char → Bool) : Option Char → List Char → Bool
  | prev, [] => f prev []
  | prev, c :: t => f prev (c :: t) || scanTest f (some c) t

/-- Embeds `\b` holds before the match when the previous character is absent or not a
word character. -/
def boundaryBefore : Option Char → Bool
  | none => true
  | some c => !isWordChar c

/-- Embeds `\b` holds after the match when the next character is absent or not a word
character. -/
def boundaryAfter : List Char → Bool
  | [] => true
  | c :: _ => !isWordChar c

/-- Embeds `between\s*\$?(\d+(?:\.\d+)?)\s*(?:and|-|to)\s*\$?(\d+(?:\.\d+)?)` tried at
the current position. -/
def betweenAt (l : List Char) : Option (ℚ × ℚ) := do
  let r ← matchCI "between".data l
  let (a, r) ← scanNumber (skipDollar (skipWs r))
  let r1 := skipWs r
  let r2 ← matchCI "and".data r1 <|> matchCI "-".data r1 <|> matchCI "to".data r1
  let (b, _) ← scanNumber (skipDollar (skipWs r2))
  pure (a, b)

/-- Embeds `const between = /.../i.exec(s)`, decoded to its two captured numbers. -/
def betweenExec (s : List Char) : Option (ℚ × ℚ) :=
  scanFirst betweenAt s

/-- Embeds `(under|below|less\s+than|cheaper\s+than)` tried at the current position. -/
def underTrigger (l : List Char) : Option (List Char) :=
  matchCI "under".data l <|> matchCI "below".data l <|>
    (do let r ← matchCI "less".data l; let r ← ws1 r; matchCI "than".data r) <|>
    (do let r ← matchCI "cheaper".data l; let r ← ws1 r; matchCI "than".data r)

/-- Embeds `(over|above|more\s+than|at\s+least)` tried at the current position. -/
def overTrigger (l : List Char) : Option (List Char) :=
  matchCI "over".data l <|> matchCI "above".data l <|>
    (do let r ← matchCI "more".data l; let r ← ws1 r; matchCI "than".data r) <|>
    (do let r ← matchCI "at".data l; let r ← ws1 r; matchCI "least".data r)

/-- Embeds `(under|...)\s*\$?(\d+(?:\.\d+)?)` at the current position, decoded to the
captured number. -/
def underAt (l : List Char) : Option ℚ := do
  let r ← underTrigger l
  let (x, _) ← scanNumber (skipDollar (skipWs r))
  pure x

/-- Embeds `(over|...)\s*\$?(\d+(?:\.\d+)?)` at the current position. -/
def overAt (l : List Char) : Option ℚ := do
  let r ← overTrigger l
  let (x, _) ← scanNumber (skipDollar (skipWs r))
  pure x

/-- Embeds `const under = /.../i.exec(s)`, decoded to its captured number. -/
def underExec (s : List Char) : Option ℚ :=
  scanFirst underAt s

/-- Embeds `const over = /.../i.exec(s)`, decoded to its captured number. -/
def overExec (s : List Char) : Option ℚ :=
  scanFirst overAt s

/-- Embeds `(\d(?:\.\d)?)\s*stars?` at the current position: one digit, an optional
one-digit fraction, then `star` (the trailing `s?` cannot affect success). -/
def starsAt : List Char → Option ℚ
  | [] => none
  | c :: r =>
    if c.isDigit then
      let (v, r2) :=
        match r with
        | '.' :: d :: r3 =>
          if d.isDigit then (decimalVal [c] [d], r3) else (decimalVal [c] [], '.' :: d :: r3)
        | _ => (decimalVal [c] [], r)
      match matchCI "star".data (skipWs r2) with
      | some _ => some v
      | none => none
    else none

/-- Embeds `const starsNum = /(\d(?:\.\d)?)\s*stars?/i.exec(s)`, decoded. -/
def starsExec (s : List Char) : Option ℚ :=
  scanFirst starsAt s

/-- Embeds `\b(good|great|high)\s+reviews?\b` tried at the current position.  After
`review`, a following `s` must be consumed before testing the boundary (the
regex cannot succeed on the shorter branch there, since the `s` itself is a
word character). -/
def goodAt (prev : Option Char) (l : List Char) : Bool :=
  boundaryBefore prev &&
    match matchCI "good".data l <|> matchCI "great".data l <|> matchCI "high".data l with
    | none => false
    | some r =>
      match ws1 r with
      | none => false
      | some r2 =>
        match matchCI "review".data r2 with
        | none => false
        | some r3 =>
          match r3 with
          | [] => true
          | c :: r4 => if c.toLower == 's' then boundaryAfter r4 else !isWordChar c

/-- Embeds `const impliesGood = /\b(good|great|high)\s+reviews?\b/i.test(s)`. -/
def goodTest (s : List Char) : Bool :=
  scanTest goodAt none s

/-- Embeds `w1[-\s]?w2` at the current position: the literal `w1`, an optional single
hyphen or whitespace character, then the literal `w2` (on either branch). -/
def hyphenWord (w1 w2 : List Char) (l : List Char) : Option (List Char) :=
  match matchCI w1 l with
  | none => none
  | some r =>
    (match r with
      | c :: r2 => if c == '-' || c.isWhitespace then matchCI w2 r2 else none
      | [] => none) <|> matchCI w2 r

/-- Embeds `\b(expensive|premium|high[-\s]?end|pricey|pricy|top[-\s]?tier)\b` at the
current position (the alternatives are pairwise exclusive at a given start, so
taking the first successful one before testing the trailing boundary agrees
with full regex backtracking). -/
def wantsHighAt (prev : Option Char) (l : List Char) : Bool :=
  boundaryBefore prev &&
    match matchCI "expensive".data l <|> matchCI "premium".data l <|>
        hyphenWord "high".data "end".data l <|> matchCI "pricey".data l <|>
        matchCI "pricy".data l <|> hyphenWord "top".data "tier".data l with
    | some r => boundaryAfter r
    | none => false

/-- Embeds `\b(cheap|budget|affordable|inexpensive|low[-\s]?cost|low[-\s]?end)\b` at
the current position. -/
def wantsLowAt (prev : Option Char) (l : List Char) : Bool :=
  boundaryBefore prev &&
    match matchCI "cheap".data l <|> matchCI "budget".data l <|>
        matchCI "affordable".data l <|> matchCI "inexpensive".data l <|>
        hyphenWord "low".data "cost".data l <|> hyphenWord "low".data "end".data l with
    | some r => boundaryAfter r
    | none => false

/-- Embeds `const wantsHigh = /.../i.test(s)`. -/
def highTest (s : List Char) : Bool :=
  scanTest wantsHighAt none s

/-- Embeds `const wantsLow = /.../i.test(s)`. -/
def lowTest (s : List Char) : Bool :=
  scanTest wantsLowAt none s

/-- Embeds `String.prototype.trim`. -/
def trimChars (l : List Char) : List Char :=
  ((l.dropWhile Char.isWhitespace).reverse.dropWhile Char.isWhitespace).reverse

/-- One step of whitespace tokenisation, applied by `foldr`: whitespace opens a
new (possibly empty) token, anything else extends the current one. -/
def splitWsAux (c : Char) (acc : List (List Char)) : List (List Char) :=
  if c.isWhitespace then [] :: acc
  else
    match acc with
    | [] => [[c]]
    | w :: ws => (c :: w) :: ws

/-- Embeds `.split(/\s+/)` up to empty tokens: the maximal whitespace-free runs.  The
empty tokens it can produce differ from the JavaScript split only in strings
that the subsequent truthiness filter of the source discards anyway. -/
def splitWs (l : List Char) : List (List Char) :=
  l.foldr splitWsAux []

/-- Embeds `/^\d+(\.\d+)?$/.test(w)`: a pure number token. -/
def isPureNumber (w : List Char) : Bool :=
  let ds := w.takeWhile Char.isDigit
  !ds.isEmpty &&
    (match w.dropWhile Char.isDigit with
     | [] => true
     | '.' :: f => !f.isEmpty && f.all Char.isDigit
     | _ => false)

/-- The keyword pipeline of `parseQuery`: lowercase, replace every character
outside `[a-z0-9\s-]` by a space, split on whitespace, strip hyphens, and drop
empty tokens, stopwords and pure numbers. -/
def keywordsOf (s : List Char) : List String :=
  let cleaned :=
    (s.map Char.toLower).map fun c =>
      if ('a' ≤ c ∧ c ≤ 'z') ∨ c.isDigit ∨ c.isWhitespace ∨ c = '-' then c else ' '
  ((splitWs cleaned).map fun w => w.filter (fun c => c ≠ '-')).filterMap fun w =>
    if ¬w.isEmpty ∧ ¬STOPWORDS.contains (String.mk w) ∧ ¬(isPureNumber w = true)
    then some (String.mk w) else none

/-- Embeds `parseQuery(q)` from the source: trim, run the three price-range patterns
with `between` ≻ `under` ≻ `over` priority, the two rating detectors with the
explicit number winning, the two price-intent tests with `high` winning, and
the keyword pipeline. -/
def parseQuery (q : String) : Query :=
  let s := trimChars q.data
  let minRating : Option ℚ :=
    match starsExec s with
    | some n => some n
    | none => if goodTest s then some 4 else none
  let prices : Option ℚ × Option ℚ :=
    match betweenExec s with
    | some (a, b) => (some (min a b), some (max a b))
    | none =>
      match underExec s with
      | some x => (none, some x)
      | none =>
        match overExec s with
        | some x => (some x, none)
        | none => (none, none)
  let priceIntent : Option PriceIntent :=
    if highTest s then some PriceIntent.high
    else if lowTest s then some PriceIntent.low
    else none
  { maxPrice := prices.2
    minPrice := prices.1
    minRating := minRating
    keywords := keywordsOf s
    priceIntent := priceIntent }

/-- Embeds `applyAIQuery(all, q)` from the source: parse, then rank (the empty-input
guard commutes with the pure `parseQuery`). -/
def applyAIQuery (all : List Product) (q : String) : List Product :=
  rank all (parseQuery q)

/-! ### Helper lemmas -/

/-- A left fold with `min` stays below its initial value. -/
theorem foldl_min_le_init (xs : List ℚ) : ∀ a : ℚ, xs.foldl min a ≤ a := by
  induction xs with
  | nil => intro a; exact le_refl a
  | cons c t ih =>
    intro a
    calc t.foldl min (min a c) ≤ min a c := ih (min a c)
    _ ≤ a := min_le_left a c

/-- A left fold with `min` is below every member of the list. -/
theorem foldl_min_le_mem (xs : List ℚ) :
    ∀ (a y : ℚ), y ∈ xs → xs.foldl min a ≤ y := by
  induction xs with
  | nil => intro a y h; exact absurd h (List.not_mem_nil y)
  | cons c t ih =>
    intro a y h
    rcases List.mem_cons.mp h with h | h
    · subst h
      calc t.foldl min (min a y) ≤ min a y := foldl_min_le_init t (min a y)
      _ ≤ y := min_le_right a y
    · exact ih (min a c) y h

/-- A left fold with `max` stays above its initial value. -/
theorem init_le_foldl_max (xs : List ℚ) : ∀ a : ℚ, a ≤ xs.foldl max a := by
  induction xs with
  | nil => intro a; exact le_refl a
  | cons c t ih =>
    intro a
    calc a ≤ max a c := le_max_left a c
    _ ≤ t.foldl max (max a c) := ih (max a c)

/-- A left fold with `max` is above every member of the list. -/
theorem mem_le_foldl_max (xs : List ℚ) :
    ∀ (a y : ℚ), y ∈ xs → y ≤ xs.foldl max a := by
  induction xs with
  | nil => intro a y h; exact absurd h (List.not_mem_nil y)
  | cons c t ih =>
    intro a y h
    rcases List.mem_cons.mp h with h | h
    · subst h
      calc y ≤ max a y := le_max_right a y
      _ ≤ t.foldl max (max a y) := init_le_foldl_max t (max a y)
    · exact ih (max a c) y h

/-- The minimum of a non-empty list is below every member. -/
theorem minOfList_le_mem (x : ℚ) (xs : List ℚ) (y : ℚ) (h : y ∈ x :: xs) :
    minOfList (x :: xs) ≤ y := by
  simp only [minOfList]
  rcases List.mem_cons.mp h with h | h
  · subst h; exact foldl_min_le_init xs y
  · exact foldl_min_le_mem xs x y h

/-- The maximum of a non-empty list is above every member. -/
theorem mem_le_maxOfList (x : ℚ) (xs : List ℚ) (y : ℚ) (h : y ∈ x :: xs) :
    y ≤ maxOfList (x :: xs) := by
  simp only [maxOfList]
  rcases List.mem_cons.mp h with h | h
  · subst h; exact init_le_foldl_max xs y
  · exact mem_le_foldl_max xs x y h

/-- The candidate-set price minimum is below the price of every member. -/
theorem minPriceOf_le {all : List Product} {p : Product} (h : p ∈ all) :
    minPriceOf all ≤ p.price := by
  have hmem : p.price ∈ all.map Product.price := List.mem_map_of_mem Product.price h
  unfold minPriceOf
  cases hall : all.map Product.price with
  | nil => rw [hall] at hmem; exact absurd hmem (List.not_mem_nil _)
  | cons x xs =>
    exact minOfList_le_mem x xs p.price (hall ▸ hmem)

/-- The candidate-set price maximum is above the price of every member. -/
theorem le_maxPriceOf {all : List Product} {p : Product} (h : p ∈ all) :
    p.price ≤ maxPriceOf all := by
  have hmem : p.price ∈ all.map Product.price := List.mem_map_of_mem Product.price h
  unfold maxPriceOf
  cases hall : all.map Product.price with
  | nil => rw [hall] at hmem; exact absurd hmem (List.not_mem_nil _)
  | cons x xs =>
    exact mem_le_maxOfList x xs p.price (hall ▸ hmem)

/-- The span floor of `1` makes the span strictly positive. -/
theorem span_pos (all : List Product) : 0 < span all :=
  lt_of_lt_of_le one_pos (le_max_left 1 (maxPriceOf all - minPriceOf all))

/-- Membership in the post-filter candidate list. -/
theorem mem_survivors_iff (all : List Product) (c : Query) (y : Scored) :
    y ∈ survivors all c ↔
      (∃ p ∈ all, Scored.mk p (scoreProduct p c (nprice all p)) (nprice all p) = y) ∧
        (1 : ℚ)/2 < y.s := by
  simp [survivors, scoredOf, List.mem_filter]

/-- When nothing passes the threshold, `rank` takes its fallback branch. -/
theorem rank_of_survivors_nil (all : List Product) (c : Query)
    (h : survivors all c = []) : rank all c = all := by
  simp only [rank]
  by_cases hall : all.isEmpty = true
  · rw [if_pos hall]
  · rw [if_neg hall, h]
    simp [List.insertionSort]

/-- When some candidate passes the threshold, `rank` returns the sorted
projection of the surviving candidates. -/
theorem rank_of_survivors_ne_nil (all : List Product) (c : Query)
    (h : survivors all c ≠ []) :
    rank all c =
      ((survivors all c).insertionSort fun a b => sortLE c a b = true).map Scored.p := by
  have hne : all ≠ [] := by
    intro h0
    apply h
    subst h0
    rfl
  have hnil : ((survivors all c).insertionSort fun a b => sortLE c a b = true).map Scored.p ≠ [] := by
    intro hnil
    apply h
    have hs : (survivors all c).insertionSort (fun a b => sortLE c a b = true) = [] :=
      List.map_eq_nil_iff.mp hnil
    have hperm := List.perm_insertionSort (fun a b : Scored => sortLE c a b = true) (survivors all c)
    rw [hs] at hperm
    exact (List.Perm.eq_nil hperm.symm)
  simp only [rank]
  rw [if_neg (by simp [hne]), if_neg (by simp [hnil])]

/-- Membership characterization of `rank` when at least one candidate passes
the relevance threshold: exactly the above-threshold input items survive. -/
theorem rank_mem_char (all : List Product) (c : Query)
    (hex : ∃ p ∈ all, (1 : ℚ)/2 < scoreProduct p c (nprice all p)) (x : Product) :
    x ∈ rank all c ↔ x ∈ all ∧ (1 : ℚ)/2 < scoreProduct x c (nprice all x) := by
  obtain ⟨p₀, hp₀, hs₀⟩ := hex
  have hsne : survivors all c ≠ [] := by
    apply List.ne_nil_of_mem
    rw [mem_survivors_iff]
    exact ⟨⟨p₀, hp₀, rfl⟩, by simpa using hs₀⟩
  rw [rank_of_survivors_ne_nil all c hsne]
  constructor
  · intro hx
    rcases List.mem_map.mp hx with ⟨y, hy, hyx⟩
    have hy' : y ∈ survivors all c := (List.mem_insertionSort _).mp hy
    rcases (mem_survivors_iff all c y).mp hy' with ⟨⟨p, hp, hpy⟩, hys⟩
    subst hpy
    have hpx : p = x := hyx
    subst hpx
    exact ⟨hp, by simpa using hys⟩
  · rintro ⟨hx, hsx⟩
    refine List.mem_map.mpr
      ⟨Scored.mk x (scoreProduct x c (nprice all x)) (nprice all x), ?_, rfl⟩
    refine (List.mem_insertionSort _).mpr ?_
    rw [mem_survivors_iff]
    exact ⟨⟨x, hx, rfl⟩, by simpa using hsx⟩

/-- Awarding the max-price bonus: when `maxPrice` is set and the price is
within the bound, the score exceeds the same score without the bound by
exactly `2`. -/
theorem scoreProduct_maxPrice_bonus (p : Product) (c : Query) (n m : ℚ)
    (hc : c.maxPrice = some m) (hp : p.price ≤ m) :
    scoreProduct p c n = scoreProduct p { c with maxPrice := none } n + 2 := by
  obtain ⟨mp, mnp, mr, kw, pi⟩ := c
  simp only [Query.maxPrice] at hc
  subst hc
  simp only [scoreProduct]
  rw [if_pos hp]
  ring

/-- Raising a present `minRating` can only lower a candidate's score. -/
theorem scoreProduct_minRating_mono (p : Product) (c : Query) (n r₁ r₂ : ℚ)
    (hc : c.minRating = some r₁) (h12 : r₁ ≤ r₂) :
    scoreProduct p { c with minRating := some r₂ } n ≤ scoreProduct p c n := by
  obtain ⟨mp, mnp, mr, kw, pi⟩ := c
  simp only [Query.minRating] at hc
  subst hc
  simp only [scoreProduct]
  have hT : (if r₂ ≤ p.rating then (2 : ℚ) else 0) ≤ if r₁ ≤ p.rating then 2 else 0 := by
    split_ifs with h1 h2
    · exact le_refl 2
    · exact absurd (le_trans h12 h1) h2
    · norm_num
    · exact le_refl 0
  linarith [hT]

/-- A concrete item whose rating sits between the two rating floors of the C7
counterexample. -/
def prodMid : Product := ⟨"a", "Alpha", 20, "X", 3, "plain"⟩

/-- A concrete item below both rating floors of the C7 counterexample. -/
def prodLow : Product := ⟨"b", "Beta", 10, "X", 1, "plain"⟩

/-- A concrete high-rated item used in witnesses. -/
def prodHi : Product := ⟨"g", "Gamma", 10, "X", 5, "plain"⟩

/-- A constraint set with rating floor `3` and nothing else. -/
def queryMR3 : Query := ⟨none, none, some 3, [], none⟩

/-- A constraint set with rating floor `4` and nothing else. -/
def queryMR4 : Query := ⟨none, none, some 4, [], none⟩

/-! ### Claims -/

/-- **C2.** For every constraint set (equivalently, every raw query string),
the ranking engine applied to the empty item sequence returns the empty
sequence unchanged. -/
theorem rank_empty_input :
    (∀ c : Query, rank [] c = []) ∧ (∀ q : String, applyAIQuery [] q = []) :=
  ⟨fun _ => rfl, fun _ => rfl⟩

/-- **C8.** Both `parseQuery` (the interpreter) and `rank` / `applyAIQuery`
(the ranking engine) are deterministic pure functions: two invocations on
identical inputs produce identical outputs. -/
theorem interpreter_and_rank_deterministic :
    ∀ (q₁ q₂ : String) (all₁ all₂ : List Product) (c₁ c₂ : Query),
      q₁ = q₂ → all₁ = all₂ → c₁ = c₂ →
      parseQuery q₁ = parseQuery q₂ ∧ rank all₁ c₁ = rank all₂ c₂ ∧
        applyAIQuery all₁ q₁ = applyAIQuery all₂ q₂ := by
  intro q₁ q₂ all₁ all₂ c₁ c₂ hq hall hc
  subst hq; subst hall; subst hc
  exact ⟨rfl, rfl, rfl⟩

/-- Witness for C8 at concrete inputs. -/
theorem interpreter_and_rank_deterministic_witness :
    parseQuery "cheap shoes" = parseQuery "cheap shoes" ∧
      rank [] ⟨none, none, none, [], none⟩ = rank [] ⟨none, none, none, [], none⟩ ∧
      applyAIQuery [] "cheap shoes" = applyAIQuery [] "cheap shoes" :=
  interpreter_and_rank_deterministic "cheap shoes" "cheap shoes" [] []
    ⟨none, none, none, [], none⟩ ⟨none, none, none, [], none⟩ rfl rfl rfl

/-- **C9.** For every non-empty item list with non-negative prices, the span
`max(1, max - min)` is strictly positive, and every item's normalized price
position lies in `[0, 1]`. -/
theorem span_pos_nprice_unit :
    ∀ all : List Product, all ≠ [] → (∀ p ∈ all, 0 ≤ p.price) →
      0 < span all ∧ ∀ p ∈ all, 0 ≤ nprice all p ∧ nprice all p ≤ 1 := by
  intro all _ _
  refine ⟨span_pos all, fun p hp => ⟨?_, ?_⟩⟩
  · exact div_nonneg (sub_nonneg.mpr (minPriceOf_le hp)) (le_of_lt (span_pos all))
  · unfold nprice
    rw [div_le_one (span_pos all)]
    calc p.price - minPriceOf all ≤ maxPriceOf all - minPriceOf all :=
        sub_le_sub_right (le_maxPriceOf hp) (minPriceOf all)
    _ ≤ span all := le_max_right 1 (maxPriceOf all - minPriceOf all)

/-- Witness for C9 at a concrete two-item list. -/
theorem span_pos_nprice_unit_witness :
    0 < span [⟨"a", "Alpha", 20, "X", 3, "d"⟩, ⟨"b", "Beta", 10, "X", 1, "d"⟩] ∧
      ∀ p ∈ [(⟨"a", "Alpha", 20, "X", 3, "d"⟩ : Product), ⟨"b", "Beta", 10, "X", 1, "d"⟩],
        0 ≤ nprice [⟨"a", "Alpha", 20, "X", 3, "d"⟩, ⟨"b", "Beta", 10, "X", 1, "d"⟩] p ∧
          nprice [⟨"a", "Alpha", 20, "X", 3, "d"⟩, ⟨"b", "Beta", 10, "X", 1, "d"⟩] p ≤ 1 :=
  span_pos_nprice_unit [⟨"a", "Alpha", 20, "X", 3, "d"⟩, ⟨"b", "Beta", 10, "X", 1, "d"⟩]
    (by simp) (by intro p hp; fin_cases hp <;> norm_num)

/-- **C10.** Whenever the constraint set returned by `parseQuery` has both
`minPrice` and `maxPrice` defined, `minPrice ≤ maxPrice`: both fields are only
set together by the `between` rule, which orders the two captured numbers. -/
theorem parseQuery_minPrice_le_maxPrice :
    ∀ (q : String) (a b : ℚ),
      (parseQuery q).minPrice = some a → (parseQuery q).maxPrice = some b → a ≤ b := by
  intro q a b h₁ h₂
  simp only [parseQuery] at h₁ h₂
  cases hb : betweenExec (trimChars q.data) with
  | some xy =>
    rw [hb] at h₁ h₂
    simp only at h₁ h₂
    rw [← Option.some_inj.mp h₁, ← Option.some_inj.mp h₂]
    exact min_le_max
  | none =>
    rw [hb] at h₁ h₂
    cases hu : underExec (trimChars q.data) with
    | some x => rw [hu] at h₁; exact absurd h₁ (by simp)
    | none =>
      rw [hu] at h₁ h₂
      cases ho : overExec (trimChars q.data) with
      | some x => rw [ho] at h₂; exact absurd h₂ (by simp)
      | none => rw [ho] at h₁; exact absurd h₁ (by simp)

/-- Witness for C10 at a concrete query. -/
theorem parseQuery_minPrice_le_maxPrice_witness : (10 : ℚ) ≤ 20 :=
  parseQuery_minPrice_le_maxPrice "between 20 and 10" 10 20
    (by with_unfolding_all rfl) (by with_unfolding_all rfl)

/-- **C1.** For every non-empty item list and every constraint set, if every
item's computed score is at most `0.5`, `rank` returns the full original item
sequence in its original input order (the relevance threshold alone never
empties the result). -/
theorem rank_fallback_all_low :
    ∀ (all : List Product) (c : Query), all ≠ [] →
      (∀ p ∈ all, scoreProduct p c (nprice all p) ≤ 1/2) →
      rank all c = all := by
  intro all c _ h
  apply rank_of_survivors_nil
  unfold survivors
  rw [List.filter_eq_nil_iff]
  intro y hy
  rcases List.mem_map.mp hy with ⟨p, hp, rfl⟩
  simp only [decide_eq_true_eq]
  exact not_lt.mpr (h p hp)

/-- Witness for C1: a single low-scoring item is returned by the fallback. -/
theorem rank_fallback_all_low_witness :
    rank [prodLow] ⟨none, none, none, [], none⟩ = [prodLow] :=
  rank_fallback_all_low [prodLow] ⟨none, none, none, [], none⟩ (by simp)
    (by with_unfolding_all decide)

/-- **C3.** For every item list and constraint set in which at least one item
scores above `0.5`, an input item appears in the result of `rank` exactly when
its computed score is strictly greater than `0.5`. -/
theorem rank_mem_iff_above_threshold :
    ∀ (all : List Product) (c : Query),
      (∃ p ∈ all, (1 : ℚ)/2 < scoreProduct p c (nprice all p)) →
      ∀ x : Product,
        x ∈ rank all c ↔ x ∈ all ∧ (1 : ℚ)/2 < scoreProduct x c (nprice all x) :=
  rank_mem_char

/-- Witness for C3 at a concrete one-item list. -/
theorem rank_mem_iff_above_threshold_witness :
    prodHi ∈ rank [prodHi] ⟨none, none, none, [], none⟩ ↔
      prodHi ∈ [prodHi] ∧
        (1 : ℚ)/2 < scoreProduct prodHi ⟨none, none, none, [], none⟩ (nprice [prodHi] prodHi) :=
  rank_mem_iff_above_threshold [prodHi] ⟨none, none, none, [], none⟩
    (by with_unfolding_all decide) prodHi

/-- **C4.** The range phrase is order-independent: whenever the `between`
pattern captures the numbers `a` and `b`, the interpreter sets
`minPrice = min a b` and `maxPrice = max a b`; in particular
`interpret("between 20 and 10")` yields `minPrice = 10`, `maxPrice = 20`. -/
theorem parseQuery_between_order_independent :
    (∀ (q : String) (a b : ℚ), betweenExec (trimChars q.data) = some (a, b) →
        (parseQuery q).minPrice = some (min a b) ∧ (parseQuery q).maxPrice = some (max a b)) ∧
      (parseQuery "between 20 and 10").minPrice = some 10 ∧
        (parseQuery "between 20 and 10").maxPrice = some 20 := by
  refine ⟨?_, by with_unfolding_all rfl, by with_unfolding_all rfl⟩
  intro q a b h
  simp only [parseQuery]
  rw [h]
  exact ⟨rfl, rfl⟩

/-- Witness for C4 at another concrete range phrasing. -/
theorem parseQuery_between_order_independent_witness :
    (parseQuery "between 2.5-3").minPrice = some (min (5/2) 3) ∧
      (parseQuery "between 2.5-3").maxPrice = some (max (5/2) 3) :=
  parseQuery_between_order_independent.1 "between 2.5-3" (5/2) 3 (by with_unfolding_all rfl)

/-- **C5.** Whenever the explicit `N stars` pattern captures `N`, the
interpreter sets `minRating = N` exactly, regardless of the implied
`minRating = 4` detector; in particular `"4.5 stars good reviews"` (where the
implied detector also fires) yields `minRating = 4.5`. -/
theorem parseQuery_stars_exact_precedence :
    (∀ (q : String) (n : ℚ), starsExec (trimChars q.data) = some n →
        (parseQuery q).minRating = some n) ∧
      (parseQuery "4.5 stars good reviews").minRating = some (9/2) ∧
        goodTest (trimChars ("4.5 stars good reviews").data) = true := by
  refine ⟨?_, by with_unfolding_all rfl, by with_unfolding_all rfl⟩
  intro q n h
  simp only [parseQuery]
  rw [h]

/-- Witness for C5 at the scenario query of the specification. -/
theorem parseQuery_stars_exact_precedence_witness :
    (parseQuery "4.5 stars").minRating = some (9/2) :=
  parseQuery_stars_exact_precedence.1 "4.5 stars" (9/2) (by with_unfolding_all rfl)

/-- **C6.** `interpret("under $50")` sets `maxPrice = 50`, and under this
constraint set every item priced exactly `50` is awarded the `+2` max-price
bonus (the bound is inclusive): its score exceeds the score without the bound
by exactly `2`. -/
theorem parseQuery_under_fifty_inclusive :
    (parseQuery "under $50").maxPrice = some 50 ∧
      ∀ (p : Product) (n : ℚ), p.price = 50 →
        scoreProduct p (parseQuery "under $50") n
          = scoreProduct p { parseQuery "under $50" with maxPrice := none } n + 2 := by
  refine ⟨by with_unfolding_all rfl, fun p n hp => ?_⟩
  exact scoreProduct_maxPrice_bonus p (parseQuery "under $50") n 50
    (by with_unfolding_all rfl) (le_of_eq hp)

/-- Witness for C6 at a concrete item priced exactly 50. -/
theorem parseQuery_under_fifty_inclusive_witness :
    scoreProduct ⟨"f", "Fifty", 50, "X", 4, "plain"⟩ (parseQuery "under $50") 0
      = scoreProduct ⟨"f", "Fifty", 50, "X", 4, "plain"⟩
          { parseQuery "under $50" with maxPrice := none } 0 + 2 :=
  parseQuery_under_fifty_inclusive.2 ⟨"f", "Fifty", 50, "X", 4, "plain"⟩ 0 rfl

/-- **C7, counterexample.** Raising `minRating` from `3` to `4` (all else
fixed) ADDS `prodLow` to the result: under the higher floor every score drops
to `≤ 0.5`, the fallback returns the whole input, and `prodLow` appears even
though the result under the lower floor excludes it. -/
theorem rank_minRating_monotone_cex :
    queryMR4 = { queryMR3 with minRating := some 4 } ∧
      queryMR3.minRating = some 3 ∧ (3 : ℚ) < 4 ∧
      rank [prodMid, prodLow] queryMR4 = [prodMid, prodLow] ∧
      rank [prodMid, prodLow] queryMR3 = [prodMid] ∧
      prodLow ∈ rank [prodMid, prodLow] queryMR4 ∧
      prodLow ∉ rank [prodMid, prodLow] queryMR3 := by
  with_unfolding_all decide

/-- **C7, amended.** If some item still scores above the threshold under the
raised rating floor (so the fallback branch is not taken), then every item in
the ranked-and-filtered result under the higher `minRating` is also in the
result under the lower one. -/
theorem rank_minRating_monotone_without_fallback :
    ∀ (all : List Product) (c : Query) (r₁ r₂ : ℚ),
      c.minRating = some r₁ → r₁ < r₂ →
      (∃ p ∈ all, (1 : ℚ)/2 < scoreProduct p { c with minRating := some r₂ } (nprice all p)) →
      ∀ x : Product,
        x ∈ rank all { c with minRating := some r₂ } → x ∈ rank all c := by
  intro all c r₁ r₂ hc h12 hex x hx
  have hmono : ∀ (p : Product) (n : ℚ),
      scoreProduct p { c with minRating := some r₂ } n ≤ scoreProduct p c n :=
    fun p n => scoreProduct_minRating_mono p c n r₁ r₂ hc (le_of_lt h12)
  have hexc : ∃ p ∈ all, (1 : ℚ)/2 < scoreProduct p c (nprice all p) := by
    obtain ⟨p₀, hp₀, hs₀⟩ := hex
    exact ⟨p₀, hp₀, lt_of_lt_of_le hs₀ (hmono p₀ (nprice all p₀))⟩
  have hx' := (rank_mem_char all { c with minRating := some r₂ } hex x).mp hx
  exact (rank_mem_char all c hexc x).mpr ⟨hx'.1, lt_of_lt_of_le hx'.2 (hmono x (nprice all x))⟩

/-- Witness for the amended C7 at a concrete one-item list. -/
theorem rank_minRating_monotone_without_fallback_witness :
    prodHi ∈ rank [prodHi] queryMR3 :=
  rank_minRating_monotone_without_fallback [prodHi] queryMR3 3 4 rfl (by norm_num)
    (by with_unfolding_all decide) prodHi (by with_unfolding_all decide)

end EcommerceAI
